import Mathlib

/-!
Shallow embedding of the tiered embedding store and similarity-search
orchestrator of the dttp project, translated from
server/models/base_model.py, server/core/db_service.py and
server/core/models.py, together with proofs of the ranking, fallback,
upsert and cache invariants stated for it.

Vectors are modelled as lists of exact rationals; floating-point
roundoff is out of scope.  Stateful Python code is modelled by explicit
state passing; code that can raise is modelled with Option or Except
arguments or results.
-/

/-- Embedding vector: an ordered sequence of (exact) numbers. -/
abbrev Vec := List ℚ

/-- Models the numpy dot product np.dot of two vectors. -/
def dot (u v : Vec) : ℚ := (List.zipWith (fun a b => a * b) u v).sum

/-- Sum of squares of a vector, the square of its L2 norm. -/
def sumSq (v : Vec) : ℚ := dot v v

/-- Largest k with k ≤ m and k * k ≤ n (0 when there is none). -/
def natSqrtAux : Nat → Nat → Nat
  | 0, _ => 0
  | (m + 1), n => if (m + 1) * (m + 1) ≤ n then m + 1 else natSqrtAux m n

/-- Integer square root (floor), by downward search. -/
def natSqrt (n : Nat) : Nat := natSqrtAux n n

/-- Models the square root inside np.linalg.norm on exact rationals.
It is exact on perfect squares, the only place the theorems rely on it. -/
def sqrtQ (q : ℚ) : ℚ := (natSqrt q.num.toNat : ℚ) / (natSqrt q.den : ℚ)

/-- Models np.linalg.norm of a vector (its L2 norm). -/
def linalg_norm (v : Vec) : ℚ := sqrtQ (sumSq v)

/-- Models the numpy elementwise division v / np.linalg.norm(v) used by
BaseModelManager to normalize embeddings before comparison. -/
def normalizeVec (v : Vec) : Vec := v.map (fun x => x / linalg_norm v)

/-- Result record built by the search paths of BaseModelManager
(base_model.py, class SearchResult).  The metadata JSON field, a
presentation-only passthrough, is omitted. -/
structure SearchResult where
  image : String
  similarity : ℚ
  storage_url : Option String
deriving DecidableEq, Repr

/-- Insert an element into a list that is sorted by descending key,
placing it in front of the first element whose key is less than or
equal to its own. -/
def insertByKeyDesc {α : Type} (key : α → ℚ) (x : α) : List α → List α
  | [] => [x]
  | y :: ys =>
      if key y ≤ key x then x :: y :: ys else y :: insertByKeyDesc key x ys

/-- Stable sort by descending key.  Python list.sort(key=..., reverse=True)
is a stable sort, and every stable sort by the same key produces the same
list, so this insertion sort is an exact model of the sorts in
base_model.py (search_results.sort / similarities.sort with
key=similarity, reverse=True) and db_service.py (similarities.sort with
key=lambda x: x[1], reverse=True). -/
def sortByKeyDesc {α : Type} (key : α → ℚ) (l : List α) : List α :=
  l.foldr (insertByKeyDesc key) []

/-- Python list slice l[:k] for an integer k: a nonnegative k keeps the
first k elements, a negative k drops the last |k| elements. -/
def pySlice {α : Type} (k : ℤ) (l : List α) : List α :=
  if 0 ≤ k then l.take k.toNat else l.take (l.length - (-k).toNat)

/-- Model of BaseModelManager._fallback_file_search.  The in-memory
cache self.image_embeddings (a Python dict, iterated in insertion
order) is the list of (filename, vector) pairs; encode_text is modelled
by its already-computed result, none standing for a raised encoding
error (caught by the function, which then returns the empty list). -/
def fallback_file_search (encText : Option Vec)
    (image_embeddings : List (String × Vec)) (top_k : ℤ) : List SearchResult :=
  if image_embeddings.isEmpty then []
  else
    match encText with
    | none => []
    | some text_embedding =>
        let similarities := image_embeddings.map
          (fun p => SearchResult.mk p.1 (dot text_embedding p.2) none)
        pySlice top_k (sortByKeyDesc SearchResult.similarity similarities)

/-- Row returned by the Supabase REST query in
BaseModelManager._supabase_search: an embedding joined with the
filename, storage url and metadata of its image. -/
structure SupaRow where
  filename : String
  storage_url : Option String
  embedding : Vec
deriving DecidableEq, Repr

/-- Model of BaseModelManager._supabase_search.  The REST call is
modelled by its outcome: an error (any exception, upon which the
function returns the empty list) or the list of rows for the model.
Both the query vector and every row vector are normalized before the
dot product is taken; results are sorted by descending similarity and
sliced to top_k. -/
def supabase_search (data : Except Unit (List SupaRow))
    (text_embedding : Vec) (top_k : ℤ) : List SearchResult :=
  match data with
  | .error _ => []
  | .ok rows =>
      if rows.isEmpty then []
      else
        let t := normalizeVec text_embedding
        let search_results := rows.map
          (fun r => SearchResult.mk r.filename
            (dot t (normalizeVec r.embedding)) r.storage_url)
        pySlice top_k (sortByKeyDesc SearchResult.similarity search_results)

/-- Image row of the relational store (core/models.py, class Image),
restricted to the fields the search paths read. -/
structure ImageRow where
  filename : String
  storage_url : Option String
deriving DecidableEq, Repr

/-- Joined row handed to DatabaseService._python_vector_search by
get_embeddings_by_model: an embedding together with its (optionally
absent) image relationship. -/
structure EmbeddingJoinRow where
  image : Option ImageRow
  embedding : Vec
deriving DecidableEq, Repr

/-- Loop body of _python_vector_search: a row without its image
relationship contributes nothing; otherwise the dot-product similarity
is computed and the row is kept when it reaches the threshold. -/
def scoreRow (query_embedding : Vec) (threshold : ℚ)
    (e : EmbeddingJoinRow) : Option (ImageRow × ℚ) :=
  match e.image with
  | none => none
  | some img =>
      let similarity := dot query_embedding e.embedding
      if threshold ≤ similarity then some (img, similarity) else none

/-- Model of DatabaseService._python_vector_search: keep the rows whose
image relationship is present and whose dot-product similarity with the
query is at least the threshold, sort by descending similarity and
slice to top_k. -/
def python_vector_search (embeddings : List EmbeddingJoinRow)
    (query_embedding : Vec) (top_k : ℤ) (threshold : ℚ) :
    List (ImageRow × ℚ) :=
  let similarities := embeddings.filterMap (scoreRow query_embedding threshold)
  pySlice top_k (sortByKeyDesc Prod.snd similarities)

/-- Model of BaseModelManager.search, the tiered orchestrator.
encText is the result of encode_text (none = the encoder raised, which
lands in the outer except handler and falls through to the file
search); dbResult is the outcome of the primary-tier
vector_similarity_search (already ranked server-side); supaData is the
outcome of the Supabase REST fetch; image_embeddings is the local
cache.  On primary success the rows are converted and returned; on a
primary error the Supabase search answers; the file search is reached
only from the outer handler, i.e. when encoding failed. -/
def search (encText : Option Vec)
    (dbResult : Except Unit (List (ImageRow × ℚ)))
    (supaData : Except Unit (List SupaRow))
    (image_embeddings : List (String × Vec)) (top_k : ℤ) : List SearchResult :=
  match encText with
  | none => fallback_file_search none image_embeddings top_k
  | some text_embedding =>
      match dbResult with
      | .ok results =>
          results.map (fun p => SearchResult.mk p.1.filename p.2 p.1.storage_url)
      | .error _ => supabase_search supaData text_embedding top_k

/-- Row of the image_embeddings table (core/models.py, class
ImageEmbedding), restricted to the fields store_embedding writes. -/
structure ImageEmbeddingRow where
  image_id : String
  model_name : String
  model_version : Option String
  embedding_dim : Nat
  embedding : Vec
deriving DecidableEq, Repr

/-- Selection predicate of the store_embedding lookup: the row belongs
to the given (image_id, model_name) pair. -/
def rowMatches (image_id model_name : String) (r : ImageEmbeddingRow) : Bool :=
  r.image_id == image_id && r.model_name == model_name

/-- Field update performed by store_embedding on an existing row:
embedding, embedding_dim and model_version are overwritten in place. -/
def updateRow (embedding : Vec) (model_version : Option String)
    (r : ImageEmbeddingRow) : ImageEmbeddingRow :=
  ⟨r.image_id, r.model_name, model_version, embedding.length, embedding⟩

/-- Model of DatabaseService.store_embedding over an explicit table
state.  scalar_one_or_none raises when more than one row matches, which
the unique index on (image_id, model_name) rules out; that raise is the
only error path and is modelled by the Except error. -/
def store_embedding (tbl : List ImageEmbeddingRow)
    (image_id model_name : String) (embedding : Vec)
    (model_version : Option String) : Except Unit (List ImageEmbeddingRow) :=
  match tbl.filter (rowMatches image_id model_name) with
  | [] => .ok (tbl ++ [⟨image_id, model_name, model_version,
      embedding.length, embedding⟩])
  | [_] => .ok (tbl.map (fun r =>
      if rowMatches image_id model_name r then
        updateRow embedding model_version r
      else r))
  | _ => .error ()

/-- Extension filter of compute_image_embeddings: keep files whose
lowercased name ends in one of the image extensions. -/
def isImageFile (f : String) : Bool :=
  f.toLower.endsWith ".png" || f.toLower.endsWith ".jpg" ||
  f.toLower.endsWith ".jpeg" || f.toLower.endsWith ".avif" ||
  f.toLower.endsWith ".webp"

/-- Python dict assignment d[k] = v on an insertion-ordered dict: an
existing key keeps its position and gets the new value, a new key is
appended at the end. -/
def dictInsert (m : List (String × Vec)) (k : String) (v : Vec) :
    List (String × Vec) :=
  if m.any (fun p => p.1 == k) then
    m.map (fun p => if p.1 == k then (k, v) else p)
  else m ++ [(k, v)]

/-- Loop body of compute_image_embeddings: encode one image file and
store the embedding under its filename; a raised per-image error
(modelled by none) is logged and skipped. -/
def computeStep (encode_image : String → Option Vec)
    (acc : List (String × Vec)) (f : String) : List (String × Vec) :=
  match encode_image f with
  | some emb => dictInsert acc f emb
  | none => acc

/-- Model of BaseModelManager.compute_image_embeddings.  imagesDir is
the listing of settings.IMAGES_PATH (none = the path does not exist, an
early return without saving); encode_image is modelled by its result
per file, none standing for a raised per-image error (logged and
skipped).  The first component is the resulting in-memory map, the
second the cache artifact written by save_embeddings_cache (none = no
write happened during this call). -/
def compute_image_embeddings (imagesDir : Option (List String))
    (encode_image : String → Option Vec)
    (image_embeddings : List (String × Vec)) :
    List (String × Vec) × Option (List (String × Vec)) :=
  match imagesDir with
  | none => (image_embeddings, none)
  | some files =>
      let image_files := files.filter isImageFile
      let final := image_files.foldl (computeStep encode_image) image_embeddings
      (final, some final)

/-- Model of BaseModelManager.recompute_embeddings: clear the in-memory
map, delete the cache file, recompute from the image source. -/
def recompute_embeddings (imagesDir : Option (List String))
    (encode_image : String → Option Vec) :
    List (String × Vec) × Option (List (String × Vec)) :=
  compute_image_embeddings imagesDir encode_image []

/-- State of the durable cache artifact as seen by
load_image_embeddings: the file is absent, or present but failing to
deserialize, or present with its content. -/
inductive CacheState where
  | missing : CacheState
  | corrupt : CacheState
  | good : List (String × Vec) → CacheState

/-- Model of BaseModelManager.load_image_embeddings: a readable cache
is loaded as-is; a missing or unreadable cache (the latter logged, the
error swallowed) leads to compute_image_embeddings. -/
def load_image_embeddings (cache : CacheState)
    (imagesDir : Option (List String)) (encode_image : String → Option Vec)
    (image_embeddings : List (String × Vec)) :
    List (String × Vec) × Option (List (String × Vec)) :=
  match cache with
  | .good data => (data, none)
  | .corrupt => compute_image_embeddings imagesDir encode_image image_embeddings
  | .missing => compute_image_embeddings imagesDir encode_image image_embeddings

/-! Toolkit lemmas about the stable descending sort and the slice. -/

theorem insertByKeyDesc_perm {α : Type} (key : α → ℚ) (x : α) (l : List α) :
    (insertByKeyDesc key x l).Perm (x :: l) := by
  induction l with
  | nil => simp [insertByKeyDesc]
  | cons y ys ih =>
      by_cases h : key y ≤ key x
      · simp [insertByKeyDesc, h]
      · simp only [insertByKeyDesc, if_neg h]
        exact (ih.cons y).trans (List.Perm.swap x y ys)

theorem sortByKeyDesc_perm {α : Type} (key : α → ℚ) (l : List α) :
    (sortByKeyDesc key l).Perm l := by
  induction l with
  | nil => simp [sortByKeyDesc]
  | cons x xs ih =>
      have h : sortByKeyDesc key (x :: xs)
          = insertByKeyDesc key x (sortByKeyDesc key xs) := rfl
      rw [h]
      exact (insertByKeyDesc_perm key x _).trans (ih.cons x)

theorem mem_insertByKeyDesc {α : Type} {key : α → ℚ} {x z : α} {l : List α}
    (h : z ∈ insertByKeyDesc key x l) : z = x ∨ z ∈ l := by
  have := (insertByKeyDesc_perm key x l).mem_iff.mp h
  simpa using this

theorem insertByKeyDesc_pairwise {α : Type} (key : α → ℚ) (x : α) {l : List α}
    (h : l.Pairwise (fun a b => key b ≤ key a)) :
    (insertByKeyDesc key x l).Pairwise (fun a b => key b ≤ key a) := by
  induction l with
  | nil => simp [insertByKeyDesc]
  | cons y ys ih =>
      rcases List.pairwise_cons.mp h with ⟨hy, hys⟩
      by_cases hc : key y ≤ key x
      · simp only [insertByKeyDesc, if_pos hc]
        refine List.pairwise_cons.mpr ⟨?_, h⟩
        intro z hz
        rcases List.mem_cons.mp hz with hz | hz
        · subst hz; exact hc
        · exact le_trans (hy z hz) hc
      · simp only [insertByKeyDesc, if_neg hc]
        refine List.pairwise_cons.mpr ⟨?_, ih hys⟩
        intro z hz
        rcases mem_insertByKeyDesc hz with hz | hz
        · subst hz; exact le_of_lt (lt_of_not_le hc)
        · exact hy z hz

theorem sortByKeyDesc_pairwise {α : Type} (key : α → ℚ) (l : List α) :
    (sortByKeyDesc key l).Pairwise (fun a b => key b ≤ key a) := by
  induction l with
  | nil => simp [sortByKeyDesc]
  | cons x xs ih => exact insertByKeyDesc_pairwise key x ih

theorem filter_insertByKeyDesc {α : Type} (key : α → ℚ) (s : ℚ) (x : α)
    (l : List α) :
    (insertByKeyDesc key x l).filter (fun a => decide (key a = s)) =
      if key x = s then x :: l.filter (fun a => decide (key a = s))
      else l.filter (fun a => decide (key a = s)) := by
  induction l with
  | nil => by_cases h : key x = s <;> simp [insertByKeyDesc, h]
  | cons y ys ih =>
      simp only [insertByKeyDesc]
      by_cases hc : key y ≤ key x
      · rw [if_pos hc]
        by_cases h : key x = s <;> by_cases hy : key y = s <;>
          simp [List.filter, h, hy]
      · rw [if_neg hc]
        by_cases hy : key y = s
        · have hxs : ¬ key x = s := by
            intro hxx
            exact absurd (le_of_eq (hy.trans hxx.symm)) hc
          rw [if_neg hxs]
          simp [List.filter, hy, hxs, ih]
        · by_cases h : key x = s
          · rw [if_pos h]
            simp [List.filter, hy, h, ih]
          · rw [if_neg h]
            simp [List.filter, hy, h, ih]

theorem filter_sortByKeyDesc {α : Type} (key : α → ℚ) (s : ℚ) (l : List α) :
    (sortByKeyDesc key l).filter (fun a => decide (key a = s)) =
      l.filter (fun a => decide (key a = s)) := by
  induction l with
  | nil => rfl
  | cons x xs ih =>
      have h : sortByKeyDesc key (x :: xs)
          = insertByKeyDesc key x (sortByKeyDesc key xs) := rfl
      rw [h, filter_insertByKeyDesc]
      by_cases hx : key x = s <;> simp [hx, ih, List.filter]

theorem insertByKeyDesc_map {α β : Type} (key : α → ℚ) (keyB : β → ℚ)
    (f : α → β) (hkey : ∀ a, keyB (f a) = key a) (x : α) (l : List α) :
    (insertByKeyDesc key x l).map f = insertByKeyDesc keyB (f x) (l.map f) := by
  induction l with
  | nil => simp [insertByKeyDesc]
  | cons y ys ih =>
      by_cases hc : key y ≤ key x
      · simp [insertByKeyDesc, hc, hkey]
      · simp [insertByKeyDesc, hc, hkey, ih]

theorem sortByKeyDesc_map {α β : Type} (key : α → ℚ) (keyB : β → ℚ)
    (f : α → β) (hkey : ∀ a, keyB (f a) = key a) (l : List α) :
    (sortByKeyDesc key l).map f = sortByKeyDesc keyB (l.map f) := by
  induction l with
  | nil => rfl
  | cons x xs ih =>
      have h : sortByKeyDesc key (x :: xs)
          = insertByKeyDesc key x (sortByKeyDesc key xs) := rfl
      rw [h, insertByKeyDesc_map key keyB f hkey, ih]
      rfl

theorem pySlice_sublist {α : Type} (k : ℤ) (l : List α) :
    (pySlice k l).Sublist l := by
  unfold pySlice
  split <;> exact List.take_sublist _ _

theorem mem_pySlice {α : Type} {k : ℤ} {l : List α} {a : α}
    (h : a ∈ pySlice k l) : a ∈ l :=
  (pySlice_sublist k l).subset h

theorem pySlice_map {α β : Type} (f : α → β) (k : ℤ) (l : List α) :
    (pySlice k l).map f = pySlice k (l.map f) := by
  unfold pySlice
  split <;> simp [List.map_take]

theorem length_pySlice_le {α : Type} (k : ℤ) (l : List α) (hk : 0 ≤ k) :
    ((pySlice k l).length : ℤ) ≤ k := by
  unfold pySlice
  rw [if_pos hk]
  have h1 : (l.take k.toNat).length ≤ k.toNat := by
    simp [List.length_take]
  omega

theorem pySlice_of_length_le {α : Type} (k : ℤ) (l : List α)
    (hk : (l.length : ℤ) ≤ k) : pySlice k l = l := by
  unfold pySlice
  have h0 : 0 ≤ k := le_trans (by positivity) hk
  rw [if_pos h0]
  apply List.take_of_length_le
  omega

/-! Characterization of the ranked searches at the level of
(key, score) pairs, and membership lemmas for the cache map. -/

theorem pySlice_nil {α : Type} (k : ℤ) : pySlice k ([] : List α) = [] := by
  unfold pySlice
  split <;> simp

theorem fallback_file_search_pairs (q : Vec)
    (store : List (String × Vec)) (k : ℤ) :
    (fallback_file_search (some q) store k).map
        (fun r => (r.image, r.similarity)) =
      pySlice k (sortByKeyDesc Prod.snd
        (store.map (fun p => (p.1, dot q p.2)))) := by
  unfold fallback_file_search
  by_cases hs : store.isEmpty
  · rw [if_pos hs]
    have h : store = [] := List.isEmpty_iff.mp hs
    subst h
    simp [sortByKeyDesc, pySlice_nil]
  · rw [if_neg hs]
    rw [pySlice_map]
    congr 1
    rw [sortByKeyDesc_map SearchResult.similarity Prod.snd
      (fun r => (r.image, r.similarity)) (fun a => rfl)]
    congr 1
    simp [List.map_map, Function.comp]

theorem supabase_search_pairs (rows : List SupaRow) (q : Vec) (k : ℤ) :
    (supabase_search (.ok rows) q k).map (fun r => (r.image, r.similarity)) =
      pySlice k (sortByKeyDesc Prod.snd (rows.map
        (fun r => (r.filename,
          dot (normalizeVec q) (normalizeVec r.embedding))))) := by
  unfold supabase_search
  by_cases hs : rows.isEmpty
  · have h : rows = [] := List.isEmpty_iff.mp hs
    subst h
    simp [sortByKeyDesc, pySlice_nil]
  · simp only [if_neg hs]
    rw [pySlice_map]
    congr 1
    rw [sortByKeyDesc_map SearchResult.similarity Prod.snd
      (fun r => (r.image, r.similarity)) (fun a => rfl)]
    congr 1
    simp [List.map_map, Function.comp]

theorem filterMap_eq_map_of_mem {α β : Type} (f : α → Option β) (g : α → β)
    (l : List α) (h : ∀ a ∈ l, f a = some (g a)) :
    l.filterMap f = l.map g := by
  induction l with
  | nil => rfl
  | cons x xs ih =>
      rw [List.filterMap_cons, h x (by simp), List.map_cons,
        ih (fun a ha => h a (by simp [ha]))]

/-- Shape shared by every ranked output of the system: slicing the
stable descending sort of a scored list gives at most k entries when k
is nonnegative, in descending score order, with duplicate-free keys
when the input keys were duplicate-free, and with equal-score entries
kept in input order. -/
theorem ranked_output_properties {α : Type} (scored : List (α × ℚ)) (k : ℤ)
    (s : ℚ) (hk : 0 ≤ k) (hnodup : (scored.map Prod.fst).Nodup) :
    ((pySlice k (sortByKeyDesc Prod.snd scored)).length : ℤ) ≤ k ∧
    (pySlice k (sortByKeyDesc Prod.snd scored)).Pairwise
      (fun a b => b.2 ≤ a.2) ∧
    ((pySlice k (sortByKeyDesc Prod.snd scored)).map Prod.fst).Nodup ∧
    List.Sublist
      ((pySlice k (sortByKeyDesc Prod.snd scored)).filter
        (fun p => decide (p.2 = s)))
      (scored.filter (fun p => decide (p.2 = s))) := by
  refine ⟨length_pySlice_le _ _ hk, ?_, ?_, ?_⟩
  · exact List.Pairwise.sublist (pySlice_sublist _ _)
      (sortByKeyDesc_pairwise Prod.snd scored)
  · have h1 : List.Perm ((sortByKeyDesc Prod.snd scored).map Prod.fst)
        (scored.map Prod.fst) := (sortByKeyDesc_perm _ _).map _
    have h2 : ((sortByKeyDesc Prod.snd scored).map Prod.fst).Nodup :=
      h1.nodup_iff.mpr hnodup
    exact List.Nodup.sublist ((pySlice_sublist _ _).map _) h2
  · have h3 := List.Sublist.filter (fun p : α × ℚ => decide (p.2 = s))
      (pySlice_sublist k (sortByKeyDesc Prod.snd scored))
    rw [filter_sortByKeyDesc Prod.snd s scored] at h3
    exact h3

theorem mem_dictInsert {m : List (String × Vec)} {k : String} {v : Vec}
    {p : String × Vec} (h : p ∈ dictInsert m k v) : p ∈ m ∨ p.1 = k := by
  unfold dictInsert at h
  by_cases hany : m.any (fun q => q.1 == k)
  · rw [if_pos hany] at h
    rcases List.mem_map.mp h with ⟨q, hq, hpq⟩
    by_cases hqk : (q.1 == k) = true
    · rw [if_pos hqk] at hpq
      right
      rw [← hpq]
    · rw [if_neg hqk] at hpq
      left
      rw [← hpq]
      exact hq
  · rw [if_neg hany] at h
    rcases List.mem_append.mp h with h | h
    · left; exact h
    · right
      have hp : p = (k, v) := by simpa using h
      rw [hp]

theorem self_mem_dictInsert (m : List (String × Vec)) (k : String) (v : Vec) :
    (k, v) ∈ dictInsert m k v := by
  unfold dictInsert
  by_cases hany : m.any (fun q => q.1 == k)
  · rw [if_pos hany]
    rcases List.any_eq_true.mp hany with ⟨q, hq, hqk⟩
    refine List.mem_map.mpr ⟨q, hq, ?_⟩
    rw [if_pos hqk]
  · rw [if_neg hany]
    simp

theorem mem_dictInsert_of_mem {m : List (String × Vec)} {f : String}
    {e v : Vec} {k : String} (h : (f, e) ∈ m) (hk : k = f → v = e) :
    (f, e) ∈ dictInsert m k v := by
  unfold dictInsert
  by_cases hany : m.any (fun q => q.1 == k)
  · rw [if_pos hany]
    refine List.mem_map.mpr ⟨(f, e), h, ?_⟩
    by_cases hfk : (((f, e) : String × Vec).1 == k) = true
    · rw [if_pos hfk]
      have h1 : f = k := by simpa using hfk
      have h2 : v = e := hk h1.symm
      rw [h1, h2]
    · rw [if_neg hfk]
  · rw [if_neg hany]
    exact List.mem_append_left _ h

theorem mem_foldl_computeStep {enc : String → Option Vec} :
    ∀ (files : List String) (m : List (String × Vec)) (p : String × Vec),
      p ∈ files.foldl (computeStep enc) m →
      p ∈ m ∨ (p.1 ∈ files ∧ (enc p.1).isSome) := by
  intro files
  induction files with
  | nil => intro m p h; exact Or.inl h
  | cons g rest ih =>
      intro m p h
      rcases ih (computeStep enc m g) p h with h1 | h1
      · unfold computeStep at h1
        cases hg : enc g with
        | none =>
            rw [hg] at h1
            exact Or.inl h1
        | some emb =>
            rw [hg] at h1
            rcases mem_dictInsert h1 with h2 | h2
            · exact Or.inl h2
            · refine Or.inr ⟨?_, ?_⟩
              · rw [h2]; exact List.mem_cons_self _ _
              · rw [h2, hg]; rfl
      · exact Or.inr ⟨List.mem_cons_of_mem _ h1.1, h1.2⟩

theorem mem_foldl_computeStep_of_mem {enc : String → Option Vec} :
    ∀ (files : List String) (m : List (String × Vec)) (f : String) (e : Vec),
      (f, e) ∈ m → enc f = some e →
      (f, e) ∈ files.foldl (computeStep enc) m := by
  intro files
  induction files with
  | nil => intro m f e h _; exact h
  | cons g rest ih =>
      intro m f e h hf
      refine ih _ f e ?_ hf
      unfold computeStep
      cases hg : enc g with
      | none => exact h
      | some emb =>
          refine mem_dictInsert_of_mem h ?_
          intro hgf
          rw [hgf] at hg
          exact Option.some_inj.mp (hg.symm.trans hf)

theorem mem_key_foldl_computeStep {enc : String → Option Vec} :
    ∀ (files : List String) (m : List (String × Vec)) (f : String) (e : Vec),
      f ∈ files → enc f = some e →
      (f, e) ∈ files.foldl (computeStep enc) m := by
  intro files
  induction files with
  | nil =>
      intro m f e h
      simp at h
  | cons g rest ih =>
      intro m f e hmem hf
      rcases List.mem_cons.mp hmem with hfg | hrest
      · subst hfg
        refine mem_foldl_computeStep_of_mem rest _ f e ?_ hf
        unfold computeStep
        rw [hf]
        exact self_mem_dictInsert _ _ _
      · exact ih _ f e hrest hf

theorem image_mem_of_mem_fallback {q : Vec} {store : List (String × Vec)}
    {k : ℤ} {r : SearchResult}
    (h : r ∈ fallback_file_search (some q) store k) :
    r.image ∈ store.map Prod.fst := by
  unfold fallback_file_search at h
  by_cases hs : store.isEmpty
  · rw [if_pos hs] at h
    simp at h
  · rw [if_neg hs] at h
    have h1 := mem_pySlice h
    have h2 := (sortByKeyDesc_perm SearchResult.similarity _).mem_iff.mp h1
    rcases List.mem_map.mp h2 with ⟨p, hp, hpr⟩
    rw [← hpr]
    exact List.mem_map.mpr ⟨p, hp, rfl⟩

theorem normalizeVec_of_unit {v : Vec} (h : sumSq v = 1) :
    normalizeVec v = v := by
  unfold normalizeVec linalg_norm
  rw [h]
  norm_num [sqrtQ, natSqrt, natSqrtAux]

theorem filterMap_cons_of_some {α β : Type} {f : α → Option β} {a : α}
    {b : β} (l : List α) (h : f a = some b) :
    (a :: l).filterMap f = b :: l.filterMap f := by
  rw [List.filterMap_cons, h]

/-! Claim theorems. -/

/-- C2 (amended): when the primary tier and the Supabase REST tier both
fail, search returns the empty result list to its caller, whatever the
local cache holds; no AllTiersExhausted or service-unavailable error is
raised (the code has no error channel on this path, and the cache tier
is not even consulted). -/
theorem search_all_tiers_failed_returns_empty (q : Vec)
    (cache : List (String × Vec)) (k : ℤ) :
    search (some q) (.error ()) (.error ()) cache k = [] := rfl

/-- C2 counterexample: with the primary tier erroring, the remote tier
erroring and the local cache empty, the search call evaluates to the
empty result list rather than surfacing a service-unavailable error. -/
theorem search_all_tiers_failed_ce :
    search (some [1]) (.error ()) (.error ()) [] 5 = [] := rfl

/-- C6: the orchestrator advances between tiers only on a tier error: a
successful primary answer is returned unchanged whatever the later
tiers would do (zero rows included), a successful remote answer does not
depend on the cache, and a zero-row success of either tier ends the
search with the empty list. -/
theorem search_tier_transitions (q : Vec) (rows : List (ImageRow × ℚ))
    (supa1 supa2 : Except Unit (List SupaRow))
    (c1 c2 : List (String × Vec)) (k : ℤ) :
    (search (some q) (.ok rows) supa1 c1 k =
      search (some q) (.ok rows) supa2 c2 k) ∧
    (search (some q) (.ok []) supa1 c1 k = []) ∧
    (search (some q) (.error ()) supa1 c1 k =
      search (some q) (.error ()) supa1 c2 k) ∧
    (search (some q) (.error ()) (.ok []) c1 k = []) :=
  ⟨rfl, rfl, rfl, rfl⟩

theorem rowMatches_updateRow (i m : String) (v : Vec) (ver : Option String)
    (r : ImageEmbeddingRow) :
    rowMatches i m (updateRow v ver r) = rowMatches i m r := rfl

theorem filter_map_update (i m : String) (v : Vec) (ver : Option String) :
    ∀ l : List ImageEmbeddingRow,
      (l.map (fun r =>
          if rowMatches i m r then updateRow v ver r else r)).filter
          (rowMatches i m) =
        (l.filter (rowMatches i m)).map (updateRow v ver) := by
  intro l
  induction l with
  | nil => rfl
  | cons r rs ih =>
      by_cases hr : rowMatches i m r = true
      · simp [List.map_cons, List.filter_cons, hr, rowMatches_updateRow, ih]
      · simp [List.map_cons, List.filter_cons, hr, rowMatches_updateRow, ih]

/-- C3: on a table satisfying the (image_id, model_name) uniqueness
invariant of the unique index, two successive store_embedding calls for
the same pair both succeed, and afterwards exactly one row exists for
the pair: its vector is the second write, its dimension the second
vector's length and its version the second version. -/
theorem store_embedding_upsert_twice (tbl : List ImageEmbeddingRow)
    (i m : String) (v1 v2 : Vec) (ver1 ver2 : Option String)
    (h : (tbl.filter (rowMatches i m)).length ≤ 1) :
    ∃ t1 t2, store_embedding tbl i m v1 ver1 = .ok t1 ∧
      store_embedding t1 i m v2 ver2 = .ok t2 ∧
      t2.filter (rowMatches i m) = [⟨i, m, ver2, v2.length, v2⟩] := by
  cases hfil : tbl.filter (rowMatches i m) with
  | nil =>
      have hf1 : (tbl ++ [(⟨i, m, ver1, v1.length, v1⟩ :
          ImageEmbeddingRow)]).filter (rowMatches i m) =
          [⟨i, m, ver1, v1.length, v1⟩] := by
        rw [List.filter_append, hfil]
        simp [rowMatches]
      refine ⟨tbl ++ [(⟨i, m, ver1, v1.length, v1⟩ : ImageEmbeddingRow)],
        (tbl ++ [(⟨i, m, ver1, v1.length, v1⟩ : ImageEmbeddingRow)]).map
          (fun s => if rowMatches i m s then updateRow v2 ver2 s else s),
        ?_, ?_, ?_⟩
      · unfold store_embedding
        rw [hfil]
      · unfold store_embedding
        rw [hf1]
      · rw [filter_map_update, hf1]
        rfl
  | cons r rest =>
      cases rest with
      | cons r2 rest2 =>
          rw [hfil] at h
          simp at h
      | nil =>
          have hr : rowMatches i m r = true := by
            have hmem : r ∈ tbl.filter (rowMatches i m) := by
              rw [hfil]
              exact List.mem_cons_self _ _
            exact (List.mem_filter.mp hmem).2
          have hrim : r.image_id = i ∧ r.model_name = m := by
            have h2 := hr
            simp [rowMatches] at h2
            exact h2
          have hf1 : (tbl.map (fun s =>
              if rowMatches i m s then updateRow v1 ver1 s else s)).filter
              (rowMatches i m) = [updateRow v1 ver1 r] := by
            rw [filter_map_update, hfil]
            rfl
          refine ⟨tbl.map (fun s =>
              if rowMatches i m s then updateRow v1 ver1 s else s),
            (tbl.map (fun s =>
              if rowMatches i m s then updateRow v1 ver1 s else s)).map
              (fun s => if rowMatches i m s then updateRow v2 ver2 s else s),
            ?_, ?_, ?_⟩
          · unfold store_embedding
            rw [hfil]
          · unfold store_embedding
            rw [hf1]
          · rw [filter_map_update, hf1]
            simp only [List.map_cons, List.map_nil]
            unfold updateRow
            rw [hrim.1, hrim.2]

/-- C3 witness: upserting vectors [1, 0] then [0, 1] for the pair
(img1, clip) into the empty table leaves exactly one row, holding
[0, 1], dimension 2 and version v2. -/
theorem store_embedding_upsert_twice_witness :
    (([] : List ImageEmbeddingRow).filter
        (rowMatches "img1" "clip")).length ≤ 1 ∧
    ∃ t1 t2, store_embedding [] "img1" "clip" [1, 0] (some "v1") = .ok t1 ∧
      store_embedding t1 "img1" "clip" [0, 1] (some "v2") = .ok t2 ∧
      t2.filter (rowMatches "img1" "clip") =
        [⟨"img1", "clip", some "v2", 2, [0, 1]⟩] :=
  ⟨by decide, store_embedding_upsert_twice [] "img1" "clip" [1, 0] [0, 1]
    (some "v1") (some "v2") (by decide)⟩

/-- C4 (amended): store_embedding performs no dimension check.  On a
table holding exactly one row for the pair — even when that row's
stored dimension differs from the new vector's length — the upsert
succeeds anyway and overwrites the row's vector and dimension with the
new values, instead of failing with a DimensionMismatch and leaving the
state unchanged. -/
theorem store_embedding_no_dimension_check (tbl : List ImageEmbeddingRow)
    (i m : String) (v : Vec) (ver : Option String)
    (h1 : (tbl.filter (rowMatches i m)).length = 1)
    (_h2 : ∀ r ∈ tbl.filter (rowMatches i m), r.embedding_dim ≠ v.length) :
    ∃ t, store_embedding tbl i m v ver = .ok t ∧
      (t.filter (rowMatches i m)).map
        (fun r => (r.embedding, r.embedding_dim)) = [(v, v.length)] := by
  cases hfil : tbl.filter (rowMatches i m) with
  | nil =>
      rw [hfil] at h1
      simp at h1
  | cons r rest =>
      cases rest with
      | cons r2 rest2 =>
          rw [hfil] at h1
          simp at h1
      | nil =>
          refine ⟨tbl.map (fun s =>
            if rowMatches i m s then updateRow v ver s else s), ?_, ?_⟩
          · unfold store_embedding
            rw [hfil]
          · rw [filter_map_update, hfil]
            rfl

/-- C4 counterexample: with a stored row of dimension 2 for
(img1, clip), upserting the 3-dimensional vector [1, 0, 0] for the same
pair succeeds and overwrites the row in place with dimension 3, rather
than failing with a DimensionMismatch and leaving the state
unchanged. -/
theorem store_embedding_dimension_ce :
    store_embedding [⟨"img1", "clip", none, 2, [1, 0]⟩] "img1" "clip"
        [1, 0, 0] none =
      .ok [⟨"img1", "clip", none, 3, [1, 0, 0]⟩] := by
  rfl

/-- C4 witness: the no-dimension-check theorem applied to a singleton
table of dimension 2 and a new vector of length 3. -/
theorem store_embedding_no_dimension_check_witness :
    (([⟨"img1", "clip", none, 2, [1, 0]⟩] :
        List ImageEmbeddingRow).filter (rowMatches "img1" "clip")).length
      = 1 ∧
    ∃ t, store_embedding [⟨"img1", "clip", none, 2, [1, 0]⟩] "img1" "clip"
        [1, 0, 0] none = .ok t ∧
      (t.filter (rowMatches "img1" "clip")).map
        (fun r => (r.embedding, r.embedding_dim)) = [([1, 0, 0], 3)] :=
  ⟨by decide, store_embedding_no_dimension_check
    [⟨"img1", "clip", none, 2, [1, 0]⟩] "img1" "clip" [1, 0, 0] none
    (by decide) (by decide)⟩

theorem ranked_transfer (out : List SearchResult)
    (scored : List (String × ℚ)) (k : ℤ) (s : ℚ) (hk : 0 ≤ k)
    (hout : out.map (fun r => (r.image, r.similarity)) =
      pySlice k (sortByKeyDesc Prod.snd scored))
    (hnodup : (scored.map Prod.fst).Nodup) :
    ((out.length : ℤ) ≤ k) ∧
    out.Pairwise (fun a b => b.similarity ≤ a.similarity) ∧
    (out.map SearchResult.image).Nodup ∧
    List.Sublist ((out.map (fun r => (r.image, r.similarity))).filter
        (fun p => decide (p.2 = s)))
      (scored.filter (fun p => decide (p.2 = s))) := by
  obtain ⟨hF1, hF2, hF3, hF4⟩ := ranked_output_properties scored k s hk hnodup
  refine ⟨?_, ?_, ?_, ?_⟩
  · have hlen : out.length =
        (pySlice k (sortByKeyDesc Prod.snd scored)).length := by
      rw [← hout, List.length_map]
    rw [hlen]
    exact hF1
  · rw [← hout] at hF2
    exact List.pairwise_map.mp hF2
  · have himg : out.map SearchResult.image =
        (out.map (fun r => (r.image, r.similarity))).map Prod.fst := by
      rw [List.map_map]
      rfl
    rw [himg, hout]
    exact hF3
  · rw [hout]
    exact hF4

/-- C1 (amended): with a nonnegative top_k and duplicate-free store
keys, each of the two client-side ranked searches returns at most top_k
results, sorted by descending similarity, with no image key repeated;
ties in score keep the iteration order of the underlying store (the
sorts are stable), not ascending key order. -/
theorem search_results_ranked (q : Vec) (store : List (String × Vec))
    (rows : List SupaRow) (k : ℤ) (s : ℚ) (hk : 0 ≤ k)
    (hstore : (store.map Prod.fst).Nodup)
    (hrows : (rows.map SupaRow.filename).Nodup) :
    (((fallback_file_search (some q) store k).length : ℤ) ≤ k ∧
      (fallback_file_search (some q) store k).Pairwise
        (fun a b => b.similarity ≤ a.similarity) ∧
      ((fallback_file_search (some q) store k).map SearchResult.image).Nodup ∧
      List.Sublist
        (((fallback_file_search (some q) store k).map
            (fun r => (r.image, r.similarity))).filter
          (fun p => decide (p.2 = s)))
        ((store.map (fun p => (p.1, dot q p.2))).filter
          (fun p => decide (p.2 = s)))) ∧
    (((supabase_search (.ok rows) q k).length : ℤ) ≤ k ∧
      (supabase_search (.ok rows) q k).Pairwise
        (fun a b => b.similarity ≤ a.similarity) ∧
      ((supabase_search (.ok rows) q k).map SearchResult.image).Nodup ∧
      List.Sublist
        (((supabase_search (.ok rows) q k).map
            (fun r => (r.image, r.similarity))).filter
          (fun p => decide (p.2 = s)))
        ((rows.map (fun r => (r.filename,
            dot (normalizeVec q) (normalizeVec r.embedding)))).filter
          (fun p => decide (p.2 = s)))) := by
  constructor
  · refine ranked_transfer _ _ k s hk (fallback_file_search_pairs q store k) ?_
    rw [List.map_map]
    exact hstore
  · refine ranked_transfer _ _ k s hk (supabase_search_pairs rows q k) ?_
    rw [List.map_map]
    exact hrows

/-- C1 counterexample: on a store iterated as b before a with equal
scores, the fallback file search returns keys in the order b, a — not
the ascending key order a, b demanded by the claim, although a < b —
and with top_k = -1 (which is ≤ 0) it returns one result instead of at
most -1. -/
theorem search_results_ranked_ce :
    ((fallback_file_search (some [1]) [("b", [1]), ("a", [1])] 2).map
        (fun r => (r.image, r.similarity)) = [("b", 1), ("a", 1)]) ∧
    ("a" : String) < "b" ∧
    (fallback_file_search (some [1]) [("b", [1]), ("a", [1])] (-1)).length
      = 1 := by
  refine ⟨?_, ?_, ?_⟩
  · norm_num [fallback_file_search, sortByKeyDesc, insertByKeyDesc,
      pySlice, dot]
  · rw [String.lt_iff_toList_lt]
    decide
  · norm_num [fallback_file_search, sortByKeyDesc, insertByKeyDesc,
      pySlice, dot]

/-- C1 witness: the ranked-output theorem applied to the singleton
store (a, [1]), a singleton Supabase row set and top_k = 3. -/
theorem search_results_ranked_witness :
    ((0 : ℤ) ≤ 3 ∧
      ((([("a", [1])] : List (String × Vec)).map Prod.fst).Nodup) ∧
      (([⟨"r1", none, [1]⟩] : List SupaRow).map SupaRow.filename).Nodup) ∧
    ((((fallback_file_search (some [1]) [("a", [1])] 3).length : ℤ) ≤ 3 ∧
      (fallback_file_search (some [1]) [("a", [1])] 3).Pairwise
        (fun a b => b.similarity ≤ a.similarity) ∧
      ((fallback_file_search (some [1]) [("a", [1])] 3).map
        SearchResult.image).Nodup ∧
      List.Sublist
        (((fallback_file_search (some [1]) [("a", [1])] 3).map
            (fun r => (r.image, r.similarity))).filter
          (fun p => decide (p.2 = 1)))
        ((([("a", [1])] : List (String × Vec)).map
            (fun p => (p.1, dot [1] p.2))).filter
          (fun p => decide (p.2 = 1)))) ∧
    (((supabase_search (.ok [⟨"r1", none, [1]⟩]) [1] 3).length : ℤ) ≤ 3 ∧
      (supabase_search (.ok [⟨"r1", none, [1]⟩]) [1] 3).Pairwise
        (fun a b => b.similarity ≤ a.similarity) ∧
      ((supabase_search (.ok [⟨"r1", none, [1]⟩]) [1] 3).map
        SearchResult.image).Nodup ∧
      List.Sublist
        (((supabase_search (.ok [⟨"r1", none, [1]⟩]) [1] 3).map
            (fun r => (r.image, r.similarity))).filter
          (fun p => decide (p.2 = 1)))
        ((([⟨"r1", none, [1]⟩] : List SupaRow).map (fun r => (r.filename,
            dot (normalizeVec [1]) (normalizeVec r.embedding)))).filter
          (fun p => decide (p.2 = 1))))) :=
  ⟨⟨by decide, by decide, by decide⟩,
    search_results_ranked [1] [("a", [1])] [⟨"r1", none, [1]⟩] 3 1
      (by decide) (by decide) (by decide)⟩

theorem pySlice_zero {α : Type} (l : List α) : pySlice 0 l = [] := by
  unfold pySlice
  rw [if_pos le_rfl]
  rfl

/-- C7 (amended): a top_k of exactly zero returns the empty list (a
negative top_k instead drops trailing entries, following Python slice
semantics, as the counterexample shows); a top_k at least the number of
stored vectors returns all of them, sorted; and an empty store or an
empty embeddings table yields the empty list without error. -/
theorem search_topk_edge_cases (q : Vec) (store : List (String × Vec))
    (k : ℤ) (embs : List EmbeddingJoinRow) (t : ℚ) :
    (fallback_file_search (some q) [] k = []) ∧
    (fallback_file_search (some q) store 0 = []) ∧
    ((store.length : ℤ) ≤ k →
      (fallback_file_search (some q) store k).map
        (fun r => (r.image, r.similarity)) =
      sortByKeyDesc Prod.snd (store.map (fun p => (p.1, dot q p.2)))) ∧
    (python_vector_search embs q 0 t = []) ∧
    (python_vector_search [] q k t = []) := by
  refine ⟨rfl, ?_, ?_, ?_, ?_⟩
  · unfold fallback_file_search
    by_cases hs : store.isEmpty
    · rw [if_pos hs]
    · rw [if_neg hs]
      exact pySlice_zero _
  · intro hk
    rw [fallback_file_search_pairs]
    apply pySlice_of_length_le
    rw [(sortByKeyDesc_perm Prod.snd _).length_eq, List.length_map]
    exact hk
  · unfold python_vector_search
    exact pySlice_zero _
  · unfold python_vector_search
    exact pySlice_nil k

/-- C7 counterexample: top_k = -1 satisfies top_k ≤ 0, yet on a
two-entry store the fallback file search returns one result (Python
slice semantics drop only the trailing entry) instead of the empty
list the claim requires. -/
theorem search_topk_edge_cases_ce :
    ((-1 : ℤ) ≤ 0) ∧
    fallback_file_search (some [1]) [("a", [1]), ("b", [2])] (-1) =
      [⟨"b", 2, none⟩] := by
  refine ⟨by decide, ?_⟩
  norm_num [fallback_file_search, sortByKeyDesc, insertByKeyDesc,
    pySlice, dot]

/-- C7 witness: the edge-case theorem applied to a singleton store with
top_k = 5, top_k = 0 and an empty embeddings table. -/
theorem search_topk_edge_cases_witness :
    ((([("a", [1])] : List (String × Vec)).length : ℤ) ≤ 5 ∧
    fallback_file_search (some [1]) [] 5 = [] ∧
    fallback_file_search (some [1]) [("a", [1])] 0 = [] ∧
    (fallback_file_search (some [1]) [("a", [1])] 5).map
      (fun r => (r.image, r.similarity)) =
      sortByKeyDesc Prod.snd (([("a", [1])] : List (String × Vec)).map
        (fun p => (p.1, dot [1] p.2))) ∧
    python_vector_search [] [1] 0 0 = [] ∧
    python_vector_search [] [1] 5 0 = []) :=
  ⟨by decide,
    (search_topk_edge_cases [1] [("a", [1])] 5 [] 0).1,
    (search_topk_edge_cases [1] [("a", [1])] 5 [] 0).2.1,
    (search_topk_edge_cases [1] [("a", [1])] 5 [] 0).2.2.1 (by decide),
    (search_topk_edge_cases [1] [("a", [1])] 0 [] 0).2.2.2.1,
    (search_topk_edge_cases [1] [("a", [1])] 5 [] 0).2.2.2.2⟩

/-- C5 (amended): when the remote tier holds exactly the rows the
primary tier would rank, every stored vector and the query are exactly
unit-normalized and every similarity clears the zero threshold the
primary Python search applies, the Supabase fallback returns the same
ranked (key, score) list as the primary Python search.  The
counterexample shows both provisos are forced: the Python path applies
a zero threshold the Supabase path lacks, and the Supabase path
normalizes vectors the Python path takes as stored. -/
theorem fallback_equivalence (rows : List SupaRow) (q : Vec) (k : ℤ)
    (hq : sumSq q = 1) (hrows : ∀ r ∈ rows, sumSq r.embedding = 1)
    (hpos : ∀ r ∈ rows, 0 ≤ dot q r.embedding) :
    (supabase_search (.ok rows) q k).map (fun r => (r.image, r.similarity)) =
      (python_vector_search
          (rows.map (fun r => ⟨some ⟨r.filename, r.storage_url⟩,
            r.embedding⟩)) q k 0).map
        (fun p => (p.1.filename, p.2)) := by
  rw [supabase_search_pairs]
  have hmapeq : rows.map (fun r => (r.filename,
      dot (normalizeVec q) (normalizeVec r.embedding))) =
      rows.map (fun r => (r.filename, dot q r.embedding)) := by
    apply List.map_congr_left
    intro r hr
    rw [normalizeVec_of_unit hq, normalizeVec_of_unit (hrows r hr)]
  rw [hmapeq]
  unfold python_vector_search
  rw [List.filterMap_map]
  rw [filterMap_eq_map_of_mem _
    (fun r => ((⟨r.filename, r.storage_url⟩ : ImageRow),
      dot q r.embedding)) rows ?hsome]
  case hsome =>
    intro r hr
    show (if (0 : ℚ) ≤ dot q r.embedding
        then some ((⟨r.filename, r.storage_url⟩ : ImageRow),
          dot q r.embedding)
        else none) = _
    rw [if_pos (hpos r hr)]
  rw [pySlice_map]
  congr 1
  rw [sortByKeyDesc_map Prod.snd Prod.snd
    (fun p : ImageRow × ℚ => (p.1.filename, p.2)) (fun a => rfl)]
  rw [List.map_map]
  rfl

/-- C5 counterexample: both tiers hold the rows (a, [-1, 0]) and
(b, [2, 0]); for query [1, 0] and top_k 5 the primary Python search
returns only (b, 2) — its zero threshold drops a — while the Supabase
fallback, which normalizes each vector and applies no threshold,
returns (b, 1) and (a, -1): different key sets and a score gap of 1,
beyond any floating-point tolerance. -/
theorem fallback_equivalence_ce :
    ((python_vector_search
        [⟨some ⟨"a", none⟩, [-1, 0]⟩, ⟨some ⟨"b", none⟩, [2, 0]⟩]
        [1, 0] 5 0).map (fun p => (p.1.filename, p.2)) = [("b", 2)]) ∧
    ((supabase_search
        (.ok [⟨"a", none, [-1, 0]⟩, ⟨"b", none, [2, 0]⟩]) [1, 0] 5).map
        (fun r => (r.image, r.similarity)) = [("b", 1), ("a", -1)]) := by
  constructor
  · have hA : scoreRow [1, 0] 0 ⟨some ⟨"a", none⟩, [-1, 0]⟩ = none := by
      norm_num [scoreRow, dot]
    have hB : scoreRow [1, 0] 0 ⟨some ⟨"b", none⟩, [2, 0]⟩ =
        some (⟨"b", none⟩, 2) := by
      norm_num [scoreRow, dot]
    norm_num [python_vector_search, hA, filterMap_cons_of_some _ hB,
      sortByKeyDesc, insertByKeyDesc, pySlice]
  · norm_num [supabase_search, sortByKeyDesc, insertByKeyDesc, pySlice,
      dot, normalizeVec, linalg_norm, sumSq, sqrtQ, natSqrt, natSqrtAux]

/-- C5 witness: the fallback-equivalence theorem at the singleton row
(a, [1, 0]) and query [1, 0], both unit vectors with similarity 1. -/
theorem fallback_equivalence_witness :
    (sumSq ([1, 0] : Vec) = 1 ∧ (0 : ℚ) ≤ dot [1, 0] [1, 0]) ∧
    (supabase_search (.ok [⟨"a", none, [1, 0]⟩]) [1, 0] 5).map
        (fun r => (r.image, r.similarity)) =
      (python_vector_search [⟨some ⟨"a", none⟩, [1, 0]⟩] [1, 0] 5 0).map
        (fun p => (p.1.filename, p.2)) := by
  refine ⟨⟨by norm_num [sumSq, dot], by norm_num [dot]⟩, ?_⟩
  exact fallback_equivalence [⟨"a", none, [1, 0]⟩] [1, 0] 5
    (by norm_num [sumSq, dot])
    (by
      intro r hr
      simp at hr
      subst hr
      norm_num [sumSq, dot])
    (by
      intro r hr
      simp at hr
      subst hr
      norm_num [dot])

/-- C8: after recompute for a model, the in-memory map holds entries
only for names in the current source listing: a name absent from the
listing has no entry, the durable artifact is exactly the recomputed
map, and no fallback search served from that map returns the absent
name. -/
theorem recompute_discards_stale (files : List String)
    (enc : String → Option Vec) (x : String) (q : Vec) (k : ℤ)
    (hx : x ∉ files) :
    ((recompute_embeddings (some files) enc).1.all
        (fun p => p.1 != x) = true) ∧
    (recompute_embeddings (some files) enc).2 =
      some (recompute_embeddings (some files) enc).1 ∧
    ((fallback_file_search (some q)
        (recompute_embeddings (some files) enc).1 k).all
        (fun r => r.image != x) = true) := by
  have hred : (recompute_embeddings (some files) enc).1 =
      (files.filter isImageFile).foldl (computeStep enc) [] := rfl
  have hmain : ∀ p ∈ (recompute_embeddings (some files) enc).1,
      p.1 ≠ x := by
    intro p hp
    rw [hred] at hp
    rcases mem_foldl_computeStep _ _ _ hp with h | h
    · simp at h
    · intro hcon
      apply hx
      rw [← hcon]
      exact List.mem_of_mem_filter h.1
  refine ⟨?_, rfl, ?_⟩
  · rw [List.all_eq_true]
    intro p hp
    simpa using hmain p hp
  · rw [List.all_eq_true]
    intro r hr
    have himg := image_mem_of_mem_fallback hr
    rcases List.mem_map.mp himg with ⟨p, hp, hpr⟩
    have hne := hmain p hp
    rw [hpr] at hne
    simpa using hne

/-- C8 witness: the stale-discard theorem for the listing [a.png], the
removed name b.png, a constant encoder and top_k = 5. -/
theorem recompute_discards_stale_witness :
    ("b.png" ∉ ["a.png"]) ∧
    ((recompute_embeddings (some ["a.png"])
        (fun _ => some [1])).1.all (fun p => p.1 != "b.png") = true) ∧
    (recompute_embeddings (some ["a.png"]) (fun _ => some [1])).2 =
      some (recompute_embeddings (some ["a.png"]) (fun _ => some [1])).1 ∧
    ((fallback_file_search (some [1])
        (recompute_embeddings (some ["a.png"]) (fun _ => some [1])).1
        5).all (fun r => r.image != "b.png") = true) :=
  ⟨by decide, recompute_discards_stale ["a.png"] (fun _ => some [1])
    "b.png" [1] 5 (by decide)⟩

/-- C9: in a batch compute pass over the image source, a file whose
encoding fails is skipped while every other image file is still
processed into the map with its embedding, the failing name gets no
entry, and the resulting map is persisted as the cache artifact — one
bad image never aborts the pass. -/
theorem compute_skips_bad_image (files : List String)
    (enc : String → Option Vec) (bad : String) (embOf : String → Vec)
    (hbad : enc bad = none)
    (hgood : ∀ f ∈ files.filter isImageFile, f ≠ bad →
      enc f = some (embOf f)) :
    ((files.filter isImageFile).all (fun f =>
        (f == bad) || decide ((f, embOf f) ∈
          (compute_image_embeddings (some files) enc []).1)) = true) ∧
    ((compute_image_embeddings (some files) enc []).1.all
        (fun p => p.1 != bad) = true) ∧
    (compute_image_embeddings (some files) enc []).2 =
      some (compute_image_embeddings (some files) enc []).1 := by
  have hred : (compute_image_embeddings (some files) enc []).1 =
      (files.filter isImageFile).foldl (computeStep enc) [] := rfl
  refine ⟨?_, ?_, rfl⟩
  · rw [List.all_eq_true]
    intro f hf
    by_cases hfb : f = bad
    · subst hfb
      simp
    · have hmem : (f, embOf f) ∈
          (files.filter isImageFile).foldl (computeStep enc) [] :=
        mem_key_foldl_computeStep _ _ f (embOf f) hf (hgood f hf hfb)
      rw [← hred] at hmem
      simp [hmem]
  · rw [List.all_eq_true]
    intro p hp
    rw [hred] at hp
    rcases mem_foldl_computeStep _ _ _ hp with h | h
    · simp at h
    · have hne : p.1 ≠ bad := by
        intro hc
        rw [hc, hbad] at h
        simp at h
      simpa using hne

/-- C9 witness: the skip theorem for the listing
[good.png, bad.png] with an encoder failing exactly on bad.png. -/
theorem compute_skips_bad_image_witness :
    ((fun f => if f = "bad.png" then (none : Option Vec) else some [1])
        "bad.png" = none) ∧
    ((["good.png", "bad.png"].filter isImageFile).all (fun f =>
        (f == "bad.png") || decide ((f, [1]) ∈
          (compute_image_embeddings (some ["good.png", "bad.png"])
            (fun f => if f = "bad.png" then none else some [1]) []).1))
      = true) ∧
    ((compute_image_embeddings (some ["good.png", "bad.png"])
        (fun f => if f = "bad.png" then none else some [1]) []).1.all
        (fun p => p.1 != "bad.png") = true) ∧
    (compute_image_embeddings (some ["good.png", "bad.png"])
        (fun f => if f = "bad.png" then none else some [1]) []).2 =
      some (compute_image_embeddings (some ["good.png", "bad.png"])
        (fun f => if f = "bad.png" then none else some [1]) []).1 := by
  have hth := compute_skips_bad_image ["good.png", "bad.png"]
    (fun f => if f = "bad.png" then none else some [1]) "bad.png"
    (fun _ => [1]) (by simp)
    (by
      intro f hf hne
      exact if_neg hne)
  exact ⟨by simp, hth.1, hth.2.1, hth.2.2⟩

/-- C10: a cache artifact that exists but cannot be deserialized does
not raise to the caller: load falls back to computing embeddings from
the image source, and, when every listed image file encodes, the
resulting map has an entry for each of them. -/
theorem load_corrupt_cache_recomputes (files : List String)
    (enc : String → Option Vec) (m : List (String × Vec))
    (hgood : ∀ f ∈ files.filter isImageFile, ∃ e, enc f = some e) :
    load_image_embeddings .corrupt (some files) enc m =
      compute_image_embeddings (some files) enc m ∧
    ((files.filter isImageFile).all (fun f =>
      (load_image_embeddings .corrupt (some files) enc m).1.any
        (fun p => p.1 == f)) = true) := by
  refine ⟨rfl, ?_⟩
  rw [List.all_eq_true]
  intro f hf
  rcases hgood f hf with ⟨e, he⟩
  have hmem := mem_key_foldl_computeStep (files.filter isImageFile)
    m f e hf he
  have hred : (load_image_embeddings .corrupt (some files) enc m).1 =
      (files.filter isImageFile).foldl (computeStep enc) m := rfl
  rw [hred, List.any_eq_true]
  exact ⟨(f, e), hmem, by simp⟩

/-- C10 witness: the corrupt-cache theorem for the listing [x.png], a
total encoder and an empty in-memory map. -/
theorem load_corrupt_cache_recomputes_witness :
    (load_image_embeddings .corrupt (some ["x.png"])
        (fun _ => some [1]) [] =
      compute_image_embeddings (some ["x.png"]) (fun _ => some [1]) []) ∧
    ((["x.png"].filter isImageFile).all (fun f =>
      (load_image_embeddings .corrupt (some ["x.png"])
        (fun _ => some [1]) []).1.any (fun p => p.1 == f)) = true) :=
  load_corrupt_cache_recomputes ["x.png"] (fun _ => some [1]) []
    (fun _ _ => ⟨[1], rfl⟩)
